import Mathlib

/-!
Verification of the geometry subsystem (polygon triangulation by ear
clipping, quadratic Bezier tessellation) of the cyber.space repository.

The TypeScript source is embedded shallowly:

* A JavaScript point object `[x, y]` is modelled by `Geom.Pt`, a record of
  the two coordinates together with a `ref : ℕ` field standing for the
  object's heap identity.  JavaScript reference comparison `!==` on point
  objects is modelled by structural disequality of `Pt` (two distinct
  objects always have distinct `ref` fields, and one object equals itself
  in every field), which is exactly what the identity-based exclusion in
  `isEar` needs: two distinct vertices that happen to share coordinates
  still differ in `ref`.
* Coordinates are exact integers `ℤ` for the triangulation layer (every
  claim is stated over exact arithmetic and every concrete scenario has
  integral inputs); the Bezier layer uses `ℚ` because the source divides
  (`t = i / segments`), and areas use `ℚ` because of the halving in the
  shoelace formula.
* The unbounded `while` loop of `triangulatePolygon` is modelled with a
  fuel parameter equal to the vertex count.  Each iteration that finds an
  ear removes exactly one vertex, so the fuel can never run out before the
  working list reaches length 3 (the invariant `polygon.length ≤ fuel + 3`
  holds throughout and is established by `triangulatePolygon`).  When a
  full scan finds no ear the source loop re-runs the identical scan
  forever; the model returns `none` in exactly that situation, so
  `none` means precisely "the original code diverges here".
-/

namespace Geom

/-- A JavaScript point object: heap identity `ref` plus the two
coordinates.  Structural equality of `Pt` models reference equality `===`
of the source. -/
structure Pt where
  ref : ℕ
  x : ℤ
  y : ℤ
  deriving DecidableEq, Repr

/-- `sign` from the source: the orientation determinant of
`(p1, p2, p3)` with `p3` as base point. -/
def sign (p1 p2 p3 : Pt) : ℤ :=
  (p1.x - p3.x) * (p2.y - p3.y) - (p2.x - p3.x) * (p1.y - p3.y)

/-- `crossProduct` from the source: the orientation determinant of
`(a, b, c)` with `a` as base point. -/
def crossProduct (a b c : Pt) : ℤ :=
  (b.x - a.x) * (c.y - a.y) - (b.y - a.y) * (c.x - a.x)

/-- `isPointInTriangle` from the source: three-sign-consistency test,
boundary inclusive. -/
def isPointInTriangle (p a b c : Pt) : Bool :=
  let d1 := sign p a b
  let d2 := sign p b c
  let d3 := sign p c a
  let hasNeg := decide (d1 < 0) || decide (d2 < 0) || decide (d3 < 0)
  let hasPos := decide (d1 > 0) || decide (d2 > 0) || decide (d3 > 0)
  !(hasNeg && hasPos)

/-- `isEar` from the source.  `p != a` is the model of the reference
comparison `p !== a` (see the module comment). -/
def isEar (a b c : Pt) (points : List Pt) : Bool :=
  decide (crossProduct a b c ≥ 0) &&
  !(points.any fun p => p != a && p != b && p != c && isPointInTriangle p a b c)

/-- Default point for `List.getD`; never actually read, because every
index the triangulation loop builds is reduced modulo the list length. -/
def dummy : Pt := ⟨0, 0, 0⟩

/-- Index of the first ear found by the source's inner `for` scan, if any.
The `(i + n - 1) % n` form is the source's `(i - 1 + n) % n` rewritten so
that it also agrees on natural-number subtraction (for `i ≥ 0` the two are
equal integers). -/
def earIndex (polygon : List Pt) : Option ℕ :=
  (List.range polygon.length).find? fun i =>
    isEar (polygon.getD ((i + polygon.length - 1) % polygon.length) dummy)
          (polygon.getD i dummy)
          (polygon.getD ((i + 1) % polygon.length) dummy)
          polygon

/-- The `while (polygon.length > 3)` loop of `triangulatePolygon`.
`fuel` bounds the number of vertex removals; `none` in the
`earIndex = none` branch models the source's infinite re-scan (the scan is
pure, so an ear-less pass leaves the state unchanged and the original
`while` loop never terminates), and `none` at `fuel = 0` is unreachable
whenever `polygon.length ≤ fuel + 3`. -/
def triangulateGo (fuel : ℕ) (polygon : List Pt) (acc : List (List Pt)) :
    Option (List (List Pt)) :=
  if 3 < polygon.length then
    match fuel with
    | 0 => none
    | fuel' + 1 =>
      match earIndex polygon with
      | some i =>
        let prev := polygon.getD ((i + polygon.length - 1) % polygon.length) dummy
        let cur := polygon.getD i dummy
        let nxt := polygon.getD ((i + 1) % polygon.length) dummy
        triangulateGo fuel' (polygon.eraseIdx i) (acc ++ [[prev, cur, nxt]])
      | none => none
  else some (acc ++ [polygon])

/-- `triangulatePolygon` from the source.  The working list starts as a
copy of the input (`[...points]`); the final residual working list is
appended to the output unconditionally (`triangles.push(polygon)`).
`some` is normal return, `none` is the source's non-termination. -/
def triangulatePolygon (points : List Pt) : Option (List (List Pt)) :=
  triangulateGo points.length points []

/-- A quadratic Bezier curve: three control points, coordinates in `ℚ`. -/
structure BezierCurve where
  p0 : ℚ × ℚ
  p1 : ℚ × ℚ
  p2 : ℚ × ℚ

/-- `generateBezier` from the source.  The loop `for (i = 0; i <= segments;
i++)` is the map over `0..segments`; `t = i / segments` is exact rational
division here.  (For `segments = 0` JavaScript computes `t = 0/0 = NaN`
while `ℚ` totalizes `0/0` to `0`; accordingly no theorem below inspects
coordinate values at `segments = 0`, only the length of the returned
list, which does not depend on `t`.) -/
def generateBezier (curve : BezierCurve) (segments : ℕ) : List (ℚ × ℚ) :=
  (List.range (segments + 1)).map fun (i : ℕ) =>
    let t : ℚ := (i : ℚ) / (segments : ℚ)
    ((1 - t) * (1 - t) * curve.p0.1 + 2 * (1 - t) * t * curve.p1.1 + t * t * curve.p2.1,
     (1 - t) * (1 - t) * curve.p0.2 + 2 * (1 - t) * t * curve.p1.2 + t * t * curve.p2.2)

/-- The quadratic Bezier formula exactly as the specification states it:
`point(t) = (1-t)^2 * p0 + 2*(1-t)*t * p1 + t^2 * p2`, applied to the
control points as 2D vectors. -/
def specBezierPoint (curve : BezierCurve) (t : ℚ) : ℚ × ℚ :=
  (1 - t) ^ 2 • curve.p0 + (2 * (1 - t) * t) • curve.p1 + t ^ 2 • curve.p2

/-! ### State-passing embedding for the frame claim

The source mutates only the local working copy (`polygon.splice`) and the
local output array; the caller's argument array is read once, when the
copy is made.  To state this, the embedding below threads the caller's
array contents through every loop iteration explicitly and returns its
final value alongside the result. -/

/-- The triangulation loop with the caller's array threaded through as
explicit state.  No branch writes to `callerPoints`, mirroring the fact
that no statement of the source's loop body mentions `points`. -/
def triangulateGoSt (fuel : ℕ) (callerPoints polygon : List Pt)
    (acc : List (List Pt)) : Option (List (List Pt)) × List Pt :=
  if 3 < polygon.length then
    match fuel with
    | 0 => (none, callerPoints)
    | fuel' + 1 =>
      match earIndex polygon with
      | some i =>
        let prev := polygon.getD ((i + polygon.length - 1) % polygon.length) dummy
        let cur := polygon.getD i dummy
        let nxt := polygon.getD ((i + 1) % polygon.length) dummy
        triangulateGoSt fuel' callerPoints (polygon.eraseIdx i) (acc ++ [[prev, cur, nxt]])
      | none => (none, callerPoints)
  else (some (acc ++ [polygon]), callerPoints)

/-- `triangulatePolygon` with the caller's array as explicit state: the
working copy `polygon` starts as the caller's contents and all removals
happen on it. -/
def triangulatePolygonSt (points : List Pt) : Option (List (List Pt)) × List Pt :=
  triangulateGoSt points.length points points []

/-- `generateBezier` with the curve argument threaded through every loop
iteration as explicit state (the loop body only reads `curve`). -/
def generateBezierSt (curve : BezierCurve) (segments : ℕ) :
    List (ℚ × ℚ) × BezierCurve :=
  (List.range (segments + 1)).foldl
    (fun st (i : ℕ) =>
      let c := st.2
      let t : ℚ := (i : ℚ) / (segments : ℚ)
      (st.1 ++ [((1 - t) * (1 - t) * c.p0.1 + 2 * (1 - t) * t * c.p1.1 + t * t * c.p2.1,
                 (1 - t) * (1 - t) * c.p0.2 + 2 * (1 - t) * t * c.p1.2 + t * t * c.p2.2)],
       c))
    ([], curve)

/-! ### Areas -/

/-- One cross term `x_a * y_b - x_b * y_a` of the shoelace sum. -/
def wedge (a b : Pt) : ℤ := a.x * b.y - b.x * a.y

/-- Sum of `wedge` over adjacent pairs of an (open) path. -/
def pathSum : List Pt → ℤ
  | [] => 0
  | [_] => 0
  | a :: b :: r => wedge a b + pathSum (b :: r)

/-- Doubled signed area of the closed polygon on a vertex list (shoelace
formula): the path sum with the first vertex appended to close the loop.
On a 3-element list this equals `crossProduct` of the three vertices. -/
def shoelace : List Pt → ℤ
  | [] => 0
  | h :: t => pathSum ((h :: t) ++ [h])

/-- Unsigned area of the closed polygon (or triangle) on a vertex list. -/
def unsignedArea (l : List Pt) : ℚ := ((|shoelace l| : ℤ) : ℚ) / 2

/-! ### Simplicity of a polygon

Modelled from the spec: the source has no simplicity test; these
definitions follow the specification's words "simple (non-self-
intersecting), closed" polygon, and are needed only to state hypotheses
and counterexamples that quantify over simple polygons. -/

/-- `p` lies on the closed segment from `u` to `v`: collinear (zero
orientation determinant) and inside the bounding box. -/
def onSegB (p u v : Pt) : Bool :=
  decide (sign p u v = 0) &&
  decide (min u.x v.x ≤ p.x) && decide (p.x ≤ max u.x v.x) &&
  decide (min u.y v.y ≤ p.y) && decide (p.y ≤ max u.y v.y)

/-- Closed segment intersection test: a proper crossing (strictly opposite
orientations on both sides) or an endpoint of one segment lying on the
other. -/
def segsIntersect (p1 p2 q1 q2 : Pt) : Bool :=
  let d1 := crossProduct q1 q2 p1
  let d2 := crossProduct q1 q2 p2
  let d3 := crossProduct p1 p2 q1
  let d4 := crossProduct p1 p2 q2
  ((decide (d1 > 0) && decide (d2 < 0) || decide (d1 < 0) && decide (d2 > 0)) &&
   (decide (d3 > 0) && decide (d4 < 0) || decide (d3 < 0) && decide (d4 > 0))) ||
  onSegB p1 q1 q2 || onSegB p2 q1 q2 || onSegB q1 p1 p2 || onSegB q2 p1 p2

/-- Modelled from the spec: the vertex list bounds a simple closed
polygon.  At least 3 vertices, pairwise distinct coordinates, consecutive
edges meet only in their shared endpoint (no collinear overlap), and
non-adjacent edges are disjoint. -/
def specSimplePolygon (ps : List Pt) : Bool :=
  let n := ps.length
  let v := fun i => ps.getD (i % n) dummy
  decide (3 ≤ n) &&
  ((List.range n).all fun i => (List.range n).all fun j =>
      !(decide (i < j)) ||
      (decide ((v i).x ≠ (v j).x) || decide ((v i).y ≠ (v j).y))) &&
  ((List.range n).all fun i =>
      !(onSegB (v i) (v ((i + 1) % n)) (v ((i + 2) % n))) &&
      !(onSegB (v ((i + 2) % n)) (v i) (v ((i + 1) % n)))) &&
  ((List.range n).all fun i => (List.range n).all fun j =>
      !(decide (i < j) && !(j == i + 1) && !(i == 0 && j == n - 1)) ||
      !(segsIntersect (v i) (v ((i + 1) % n)) (v j) (v ((j + 1) % n))))

/-! ### Concrete inputs used by the scenarios, counterexamples and
witnesses.  The `ref` tags `0, 1, 2, 3` record that the four array
literals of such an input are four distinct heap objects. -/

/-- The CCW square `[[0,0],[4,0],[4,4],[0,4]]` of the spec scenario. -/
def ccwSquare : List Pt := [⟨0, 0, 0⟩, ⟨1, 4, 0⟩, ⟨2, 4, 4⟩, ⟨3, 0, 4⟩]

/-- The same square wound clockwise: a polygon with no ear under the
source's orientation test, on which the source loop never terminates. -/
def cwSquare : List Pt := [⟨0, 0, 0⟩, ⟨1, 0, 4⟩, ⟨2, 4, 4⟩, ⟨3, 4, 0⟩]

/-- A self-intersecting bowtie `[[0,0],[4,4],[4,0],[0,4]]`. -/
def bowtie : List Pt := [⟨0, 0, 0⟩, ⟨1, 4, 4⟩, ⟨2, 4, 0⟩, ⟨3, 0, 4⟩]

/-- A simple but clockwise-wound dart quadrilateral
`[[0,0],[2,1],[2,3],[4,0]]`; its reflex-in-CW vertex `[2,1]` passes the
ear test, so clipping it counts area lying outside the polygon. -/
def dart : List Pt := [⟨0, 0, 0⟩, ⟨1, 2, 1⟩, ⟨2, 2, 3⟩, ⟨3, 4, 0⟩]

/-! ### Shoelace algebra

The key exact identity behind area bookkeeping: removing one vertex from
a closed vertex list decreases the doubled signed area by exactly the
`crossProduct` of the removed vertex with its two cyclic neighbours. -/

theorem crossProduct_eq_wedge (u v w : Pt) :
    crossProduct u v w = wedge u v + wedge v w - wedge u w := by
  simp only [crossProduct, wedge]; ring

theorem pathSum_split (A : List Pt) (x : Pt) (B : List Pt) :
    pathSum (A ++ x :: B) = pathSum (A ++ [x]) + pathSum (x :: B) := by
  induction A with
  | nil => simp [pathSum]
  | cons a A ih =>
    cases A with
    | nil => cases B <;> simp [pathSum]
    | cons a2 A2 =>
      have e1 : pathSum ((a :: a2 :: A2) ++ x :: B)
          = wedge a a2 + pathSum ((a2 :: A2) ++ x :: B) := by
        simp [pathSum]
      have e2 : pathSum ((a :: a2 :: A2) ++ [x])
          = wedge a a2 + pathSum ((a2 :: A2) ++ [x]) := by
        simp [pathSum]
      rw [e1, e2, ih]
      ring

theorem pathSum_concat (A : List Pt) (l x : Pt) (h : A.getLast? = some l) :
    pathSum (A ++ [x]) = pathSum A + wedge l x := by
  induction A with
  | nil => simp at h
  | cons a A ih =>
    cases A with
    | nil =>
      simp only [List.getLast?_singleton, Option.some_inj] at h
      subst h
      simp [pathSum]
    | cons a2 A2 =>
      rw [List.getLast?_cons_cons] at h
      have e1 : pathSum ((a :: a2 :: A2) ++ [x])
          = wedge a a2 + pathSum ((a2 :: A2) ++ [x]) := by
        simp [pathSum]
      have e2 : pathSum (a :: a2 :: A2) = wedge a a2 + pathSum (a2 :: A2) := rfl
      rw [e1, e2, ih h]
      ring

theorem shoelace_head (v w : Pt) (R : List Pt) (l : Pt)
    (h : (w :: R).getLast? = some l) :
    shoelace (v :: w :: R) = crossProduct l v w + shoelace (w :: R) := by
  simp only [shoelace, List.cons_append]
  have h1 : pathSum (v :: (w :: (R ++ [v]))) = wedge v w + pathSum (w :: (R ++ [v])) := rfl
  have h2 : pathSum ((w :: R) ++ [v]) = pathSum (w :: R) + wedge l v :=
    pathSum_concat _ _ _ h
  have h3 : pathSum ((w :: R) ++ [w]) = pathSum (w :: R) + wedge l w :=
    pathSum_concat _ _ _ h
  simp only [List.cons_append] at h2 h3
  rw [h1, h2, h3, crossProduct_eq_wedge]
  ring

theorem shoelace_mid (A : List Pt) (u v w : Pt) (B : List Pt) :
    shoelace (A ++ u :: v :: w :: B) =
      crossProduct u v w + shoelace (A ++ u :: w :: B) := by
  cases A with
  | nil =>
    simp only [List.nil_append, shoelace, List.cons_append]
    have h1 : pathSum (u :: v :: w :: (B ++ [u]))
        = wedge u v + wedge v w + pathSum (w :: (B ++ [u])) := by
      simp [pathSum]; ring
    have h2 : pathSum (u :: w :: (B ++ [u]))
        = wedge u w + pathSum (w :: (B ++ [u])) := rfl
    rw [h1, h2, crossProduct_eq_wedge]
    ring
  | cons a A =>
    simp only [shoelace, List.cons_append, List.append_assoc]
    have h1 := pathSum_split (a :: A) u (v :: w :: (B ++ [a]))
    have h2 := pathSum_split (a :: A) u (w :: (B ++ [a]))
    simp only [List.cons_append] at h1 h2
    rw [h1, h2]
    have h3 : pathSum (u :: v :: w :: (B ++ [a]))
        = wedge u v + (wedge v w + pathSum (w :: (B ++ [a]))) := rfl
    have h4 : pathSum (u :: w :: (B ++ [a])) = wedge u w + pathSum (w :: (B ++ [a])) := rfl
    rw [h3, h4, crossProduct_eq_wedge]
    ring

theorem shoelace_last (a : Pt) (A : List Pt) (u v : Pt) :
    shoelace ((a :: A) ++ [u, v]) = crossProduct u v a + shoelace ((a :: A) ++ [u]) := by
  simp only [shoelace, List.cons_append, List.append_assoc, List.nil_append]
  have h1 := pathSum_split (a :: A) u [v, a]
  have h2 := pathSum_split (a :: A) u [a]
  simp only [List.cons_append] at h1 h2
  rw [h1, h2]
  simp only [pathSum, crossProduct_eq_wedge]
  ring

/-- Removing the vertex at index `i` (as the loop does with `splice`)
decreases the doubled signed area by exactly the `crossProduct` of the
vertex with its cyclic neighbours `(i-1+n) % n` and `(i+1) % n`. -/
theorem shoelace_erase (l : List Pt) (i : ℕ) (h4 : 4 ≤ l.length) (hi : i < l.length) :
    shoelace l =
      crossProduct (l.getD ((i + l.length - 1) % l.length) dummy)
        (l.getD i dummy) (l.getD ((i + 1) % l.length) dummy)
      + shoelace (l.eraseIdx i) := by
  rcases Nat.eq_zero_or_pos i with hz | hpos
  · -- i = 0 : previous vertex is the last element
    subst hz
    obtain ⟨v, l1, rfl⟩ := List.exists_cons_of_ne_nil
      (show l ≠ [] by intro h; rw [h] at h4; simp at h4)
    obtain ⟨w, R, rfl⟩ := List.exists_cons_of_ne_nil
      (show l1 ≠ [] by intro h; rw [h] at h4; simp at h4)
    have e0 : 0 + (v :: w :: R).length - 1 = (v :: w :: R).length - 1 := by omega
    have hp1 : ((v :: w :: R).length - 1) % (v :: w :: R).length
        = (v :: w :: R).length - 1 := Nat.mod_eq_of_lt (by simp)
    have hp2 : (0 + 1) % (v :: w :: R).length = 1 := Nat.mod_eq_of_lt (by simp)
    rw [e0, hp1, hp2]
    obtain ⟨lp, hlp⟩ := Option.isSome_iff_exists.mp
      (List.getLast?_isSome.mpr (show (w :: R) ≠ [] by simp))
    have hgd : (v :: w :: R).getD ((v :: w :: R).length - 1) dummy = lp := by
      rw [List.getD_eq_getElem?_getD, ← List.getLast?_eq_getElem?,
        List.getLast?_cons_cons, hlp]
      rfl
    have h0 : (v :: w :: R).getD 0 dummy = v := rfl
    have h1 : (v :: w :: R).getD 1 dummy = w := rfl
    have herase : (v :: w :: R).eraseIdx 0 = w :: R := rfl
    rw [hgd, h0, h1, herase]
    exact shoelace_head v w R lp hlp
  · rcases Nat.lt_or_ge (i + 1) l.length with hmid | hlastc
    · -- 0 < i and i + 1 < n : interior removal
      obtain ⟨k, rfl⟩ : ∃ k, i = k + 1 := ⟨i - 1, by omega⟩
      have hk0 : k < l.length := by omega
      have hk1 : k + 1 < l.length := by omega
      have hk2 : k + 2 < l.length := by omega
      have hp1 : (k + 1 + l.length - 1) % l.length = k := by
        have e : k + 1 + l.length - 1 = k + l.length := by omega
        rw [e, Nat.add_mod_right]
        exact Nat.mod_eq_of_lt hk0
      have hp2 : (k + 1 + 1) % l.length = k + 2 := Nat.mod_eq_of_lt hk2
      rw [hp1, hp2]
      rw [List.getD_eq_getElem l dummy hk0, List.getD_eq_getElem l dummy hk1,
        List.getD_eq_getElem l dummy hk2]
      have hd : l = l.take k ++ l[k] :: l[k + 1] :: l[k + 2] :: l.drop (k + 3) := by
        conv_lhs => rw [← List.take_append_drop k l]
        rw [List.drop_eq_getElem_cons hk0, List.drop_eq_getElem_cons hk1,
          List.drop_eq_getElem_cons hk2]
      have herase : l.eraseIdx (k + 1) = l.take k ++ l[k] :: l.drop (k + 2) := by
        rw [List.eraseIdx_eq_take_drop_succ, List.take_succ,
          List.getElem?_eq_getElem hk0]
        simp only [Option.toList_some, List.append_assoc, List.singleton_append]
      rw [List.drop_eq_getElem_cons hk2] at herase
      rw [herase]
      conv_lhs => rw [hd]
      exact shoelace_mid (l.take k) l[k] l[k + 1] l[k + 2] (l.drop (k + 3))
    · -- i = n - 1 : next vertex wraps to the head
      have hieq : i = l.length - 1 := by omega
      have hn2 : l.length - 2 < l.length := by omega
      have hn1 : l.length - 1 < l.length := by omega
      have h0 : 0 < l.length := by omega
      have hp1 : (i + l.length - 1) % l.length = l.length - 2 := by
        have e : i + l.length - 1 = (l.length - 2) + l.length := by omega
        rw [e, Nat.add_mod_right]
        exact Nat.mod_eq_of_lt hn2
      have hp2 : (i + 1) % l.length = 0 := by
        have e : i + 1 = l.length := by omega
        rw [e, Nat.mod_self]
      rw [hp1, hp2, hieq]
      have hd : l = l.take (l.length - 2) ++ [l[l.length - 2], l[l.length - 1]] := by
        conv_lhs => rw [← List.take_append_drop (l.length - 2) l]
        rw [List.drop_eq_getElem_cons hn2]
        have e : l.length - 2 + 1 = l.length - 1 := by omega
        rw [e, List.drop_eq_getElem_cons hn1]
        have e2 : l.length - 1 + 1 = l.length := by omega
        rw [e2, List.drop_length]
      have htk : (l.take (l.length - 2)).length = l.length - 2 := by
        rw [List.length_take]; omega
      obtain ⟨a, A, hA⟩ := List.exists_cons_of_ne_nil
        (show l.take (l.length - 2) ≠ [] by
          intro h; rw [h] at htk; simp at htk; omega)
      have hill : l = (a :: A) ++ [l[l.length - 2], l[l.length - 1]] := by
        rw [← hA]; exact hd
      have ha : l.getD 0 dummy = a := by
        conv_lhs => rw [hill]
        rfl
      have herase : l.eraseIdx (l.length - 1) = (a :: A) ++ [l[l.length - 2]] := by
        rw [List.eraseIdx_eq_take_drop_succ]
        have e2 : l.length - 1 + 1 = l.length := by omega
        rw [e2, List.drop_length]
        have e3 : l.length - 1 = (l.length - 2) + 1 := by omega
        rw [e3, List.take_succ, List.getElem?_eq_getElem hn2, hA]
        simp
      rw [List.getD_eq_getElem l dummy hn2, List.getD_eq_getElem l dummy hn1, ha,
        herase]
      conv_lhs => rw [hill]
      exact shoelace_last a A l[l.length - 2] l[l.length - 1]

theorem shoelace_triple (a b c : Pt) : shoelace [a, b, c] = crossProduct a b c := by
  simp [shoelace, pathSum, crossProduct_eq_wedge, wedge]
  ring

/-! ### The loop invariant of `triangulateGo` -/

theorem earIndex_lt {polygon : List Pt} {i : ℕ} (h : earIndex polygon = some i) :
    i < polygon.length := by
  unfold earIndex at h
  have hm := List.mem_of_find?_eq_some h
  simpa using hm

theorem length_eraseIdx_lt {l : List Pt} {i : ℕ} (h : i < l.length) :
    (l.eraseIdx i).length = l.length - 1 := by
  rw [List.length_eraseIdx, if_pos h]

theorem getD_mem {l : List Pt} {j : ℕ} (h : j < l.length) : l.getD j dummy ∈ l := by
  rw [List.getD_eq_getElem l dummy h]
  exact List.getElem_mem h

theorem triangulateGo_of_le (fuel : ℕ) (polygon : List Pt) (acc : List (List Pt))
    (h : ¬ 3 < polygon.length) :
    triangulateGo fuel polygon acc = some (acc ++ [polygon]) := by
  cases fuel <;> simp [triangulateGo, h]

/-- Everything the claims need about one complete run of the loop, by one
induction: the produced suffix `tl` of the output, its length, vertex
provenance, the 3-point shape of all clipped ears, the residual final
element, and the exact doubled-signed-area bookkeeping. -/
theorem triangulateGo_spec (fuel : ℕ) :
    ∀ (polygon : List Pt) (acc ts : List (List Pt)),
      polygon.length ≤ fuel + 3 →
      triangulateGo fuel polygon acc = some ts →
      ∃ tl, ts = acc ++ tl ∧
        tl.length = polygon.length - 3 + 1 ∧
        (∀ t ∈ tl, ∀ p ∈ t, p ∈ polygon) ∧
        (∀ t ∈ tl.dropLast, t.length = 3) ∧
        (∃ r, tl.getLast? = some r ∧ r.length = min polygon.length 3 ∧
          (polygon.length ≤ 3 → r = polygon)) ∧
        (tl.map shoelace).sum = shoelace polygon := by
  induction fuel with
  | zero =>
    intro polygon acc ts hinv h
    have hlen : ¬ 3 < polygon.length := by omega
    rw [triangulateGo_of_le 0 polygon acc hlen] at h
    obtain rfl : acc ++ [polygon] = ts := Option.some.inj h
    exact ⟨[polygon], rfl, by simp; omega, by simp, by simp,
      ⟨polygon, by simp, (Nat.min_eq_left (show polygon.length ≤ 3 by omega)).symm, fun _ => rfl⟩, by simp⟩
  | succ fuel ih =>
    intro polygon acc ts hinv h
    by_cases hlen : 3 < polygon.length
    · rw [triangulateGo, if_pos hlen] at h
      cases he : earIndex polygon with
      | none =>
        simp only [he] at h
        exact Option.noConfusion h
      | some i =>
        simp only [he] at h
        have hi := earIndex_lt he
        have hlen2 : (polygon.eraseIdx i).length = polygon.length - 1 :=
          length_eraseIdx_lt hi
        have hinv2 : (polygon.eraseIdx i).length ≤ fuel + 3 := by omega
        obtain ⟨tl, htl, hlentl, hmem, hdrop, ⟨r, hr, hrlen, hrsmall⟩, hsum⟩ :=
          ih _ _ _ hinv2 h
        refine ⟨[polygon.getD ((i + polygon.length - 1) % polygon.length) dummy,
                 polygon.getD i dummy,
                 polygon.getD ((i + 1) % polygon.length) dummy] :: tl,
          by rw [htl, List.append_assoc]; rfl, ?_, ?_, ?_, ?_, ?_⟩
        · simp only [List.length_cons]
          omega
        · intro t ht p hp
          rcases List.mem_cons.mp ht with rfl | ht2
          · simp only [List.mem_cons, List.not_mem_nil, or_false] at hp
            rcases hp with rfl | rfl | rfl
            · exact getD_mem (Nat.mod_lt _ (by omega))
            · exact getD_mem hi
            · exact getD_mem (Nat.mod_lt _ (by omega))
          · exact List.eraseIdx_subset polygon i (hmem t ht2 p hp)
        · cases tl with
          | nil => simp at hr
          | cons t0 tl0 =>
            intro t ht
            rw [List.dropLast_cons₂] at ht
            rcases List.mem_cons.mp ht with rfl | ht2
            · rfl
            · exact hdrop t ht2
        · cases tl with
          | nil => simp at hr
          | cons t0 tl0 =>
            refine ⟨r, ?_, ?_, ?_⟩
            · rw [List.getLast?_cons_cons]
              exact hr
            · rw [hrlen, hlen2, Nat.min_eq_right (by omega), Nat.min_eq_right (by omega)]
            · intro hc; omega
        · have hstep := shoelace_erase polygon i (by omega) hi
          simp only [List.map_cons, List.sum_cons, hsum, shoelace_triple]
          omega
    · rw [triangulateGo_of_le (fuel + 1) polygon acc hlen] at h
      obtain rfl : acc ++ [polygon] = ts := Option.some.inj h
      exact ⟨[polygon], rfl, by simp; omega, by simp, by simp,
        ⟨polygon, by simp, (Nat.min_eq_left (show polygon.length ≤ 3 by omega)).symm, fun _ => rfl⟩, by simp⟩

/-! ### The state-threaded embeddings agree with the plain ones and leave
the caller's state untouched -/

theorem triangulateGoSt_eq (fuel : ℕ) :
    ∀ (callerPoints polygon : List Pt) (acc : List (List Pt)),
      triangulateGoSt fuel callerPoints polygon acc
        = (triangulateGo fuel polygon acc, callerPoints) := by
  induction fuel with
  | zero =>
    intro ca polygon acc
    by_cases hlen : 3 < polygon.length <;>
      simp [triangulateGoSt, triangulateGo, hlen]
  | succ fuel ih =>
    intro ca polygon acc
    rw [triangulateGoSt, triangulateGo]
    by_cases hlen : 3 < polygon.length
    · rw [if_pos hlen, if_pos hlen]
      cases he : earIndex polygon with
      | none => simp only [he]
      | some i =>
        simp only [he]
        exact ih ca (polygon.eraseIdx i) _
    · rw [if_neg hlen, if_neg hlen]

theorem triangulatePolygonSt_eq (points : List Pt) :
    triangulatePolygonSt points = (triangulatePolygon points, points) := by
  unfold triangulatePolygonSt triangulatePolygon
  exact triangulateGoSt_eq points.length points points []

theorem foldl_push {α β γ : Type} (f : γ → α → β) :
    ∀ (l : List α) (acc : List β) (c : γ),
      l.foldl (fun st i => (st.1 ++ [f st.2 i], st.2)) (acc, c)
        = (acc ++ l.map (f c), c) := by
  intro l
  induction l with
  | nil => intro acc c; simp
  | cons a l ih =>
    intro acc c
    simp only [List.foldl_cons, List.map_cons]
    rw [ih]
    simp

theorem generateBezierSt_eq (curve : BezierCurve) (segments : ℕ) :
    generateBezierSt curve segments = (generateBezier curve segments, curve) := by
  unfold generateBezierSt generateBezier
  exact foldl_push
    (fun (c : BezierCurve) (i : ℕ) =>
      ((1 - (i : ℚ) / (segments : ℚ)) * (1 - (i : ℚ) / (segments : ℚ)) * c.p0.1
          + 2 * (1 - (i : ℚ) / (segments : ℚ)) * ((i : ℚ) / (segments : ℚ)) * c.p1.1
          + ((i : ℚ) / (segments : ℚ)) * ((i : ℚ) / (segments : ℚ)) * c.p2.1,
       (1 - (i : ℚ) / (segments : ℚ)) * (1 - (i : ℚ) / (segments : ℚ)) * c.p0.2
          + 2 * (1 - (i : ℚ) / (segments : ℚ)) * ((i : ℚ) / (segments : ℚ)) * c.p1.2
          + ((i : ℚ) / (segments : ℚ)) * ((i : ℚ) / (segments : ℚ)) * c.p2.2))
    (List.range (segments + 1)) [] curve

/-! ### The three-sign point-in-triangle test -/

theorem isPointInTriangle_iff (p a b c : Pt) :
    isPointInTriangle p a b c = true ↔
      ¬((sign p a b < 0 ∨ sign p b c < 0 ∨ sign p c a < 0) ∧
        (0 < sign p a b ∨ 0 < sign p b c ∨ 0 < sign p c a)) := by
  simp only [isPointInTriangle, Bool.not_eq_true', Bool.and_eq_false_iff,
    Bool.or_eq_false_iff, decide_eq_false_iff_not, not_lt, gt_iff_lt]
  omega

theorem isPointInTriangle_cyc (p a b c : Pt) :
    isPointInTriangle p a b c = isPointInTriangle p b c a := by
  rw [Bool.eq_iff_iff, isPointInTriangle_iff, isPointInTriangle_iff]
  tauto

theorem sign_sum (p a b c : Pt) :
    sign p a b + sign p b c + sign p c a = sign a b c := by
  simp only [sign]; ring

theorem sign_collinear_x (p a b c : Pt) (h0 : sign p a b = 0) :
    (b.x - a.x) * sign p c a = (p.x - a.x) * sign a b c := by
  simp only [sign] at h0 ⊢
  linear_combination (-(c.x - a.x)) * h0

theorem sign_collinear_y (p a b c : Pt) (h0 : sign p a b = 0) :
    (b.y - a.y) * sign p c a = (p.y - a.y) * sign a b c := by
  simp only [sign] at h0 ⊢
  linear_combination (-(c.y - a.y)) * h0

/-- A point on the closed edge from `a` to `b` passes the inclusive
three-sign test for the triangle `(a, b, c)`. -/
theorem isPointInTriangle_of_onSeg_ab (p a b c : Pt) (h : onSegB p a b = true) :
    isPointInTriangle p a b c = true := by
  simp only [onSegB, Bool.and_eq_true, decide_eq_true_eq, and_assoc] at h
  obtain ⟨h0, hx1, hx2, hy1, hy2⟩ := h
  rcases eq_or_ne a.x b.x with hab | hab
  · rcases eq_or_ne a.y b.y with haby | haby
    · -- a and b have the same coordinates, so p is pinned to them
      have hpx : p.x = a.x := by rw [← hab] at hx1 hx2; simp at hx1 hx2; omega
      have hpy : p.y = a.y := by rw [← haby] at hy1 hy2; simp at hy1 hy2; omega
      have e2 : sign p b c = 0 := by
        simp only [sign]; rw [hpx, hpy, hab, haby]; ring
      have e3 : sign p c a = 0 := by
        simp only [sign]; rw [hpx, hpy]; ring
      rw [isPointInTriangle_iff]
      rintro ⟨hn | hn | hn, hp | hp | hp⟩ <;> omega
    · -- vertical edge: use the y-coordinate identities
      have i3 := sign_collinear_y p a b c h0
      have i2 : (b.y - a.y) * sign p b c = (b.y - p.y) * sign a b c := by
        have hs := sign_sum p a b c
        linear_combination (b.y - a.y) * hs - i3 - (b.y - a.y) * h0
      have hbet : 0 ≤ (p.y - a.y) * (b.y - p.y) := by
        rcases le_total a.y b.y with hc | hc
        · rw [min_eq_left hc] at hy1
          rw [max_eq_right hc] at hy2
          exact mul_nonneg (by linarith) (by linarith)
        · rw [min_eq_right hc] at hy1
          rw [max_eq_left hc] at hy2
          nlinarith
      have hmul : (b.y - a.y) ^ 2 * (sign p b c * sign p c a)
          = ((p.y - a.y) * (b.y - p.y)) * (sign a b c) ^ 2 := by
        calc (b.y - a.y) ^ 2 * (sign p b c * sign p c a)
            = ((b.y - a.y) * sign p b c) * ((b.y - a.y) * sign p c a) := by ring
          _ = ((b.y - p.y) * sign a b c) * ((p.y - a.y) * sign a b c) := by rw [i2, i3]
          _ = ((p.y - a.y) * (b.y - p.y)) * (sign a b c) ^ 2 := by ring
      have hrhs : 0 ≤ ((p.y - a.y) * (b.y - p.y)) * (sign a b c) ^ 2 :=
        mul_nonneg hbet (sq_nonneg _)
      have hne : b.y - a.y ≠ 0 := sub_ne_zero.mpr (Ne.symm haby)
      have hsq : 0 < (b.y - a.y) ^ 2 :=
        (sq_nonneg _).lt_of_ne fun h => hne ((pow_eq_zero_iff two_ne_zero).mp h.symm)
      have hkey : 0 ≤ sign p b c * sign p c a := by
        by_contra hneg
        push_neg at hneg
        have hlt : (b.y - a.y) ^ 2 * (sign p b c * sign p c a) < 0 :=
          mul_neg_of_pos_of_neg hsq hneg
        rw [hmul] at hlt
        exact absurd hlt (not_lt.mpr hrhs)
      rw [isPointInTriangle_iff]
      rintro ⟨hn | hn | hn, hp | hp | hp⟩
      · omega
      · omega
      · omega
      · omega
      · omega
      · exact absurd hkey (not_le.mpr (mul_neg_of_neg_of_pos hn hp))
      · omega
      · exact absurd hkey (not_le.mpr (mul_neg_of_pos_of_neg hp hn))
      · omega
  · -- non-vertical edge: use the x-coordinate identities
    have i3 := sign_collinear_x p a b c h0
    have i2 : (b.x - a.x) * sign p b c = (b.x - p.x) * sign a b c := by
      have hs := sign_sum p a b c
      linear_combination (b.x - a.x) * hs - i3 - (b.x - a.x) * h0
    have hbet : 0 ≤ (p.x - a.x) * (b.x - p.x) := by
      rcases le_total a.x b.x with hc | hc
      · rw [min_eq_left hc] at hx1
        rw [max_eq_right hc] at hx2
        exact mul_nonneg (by linarith) (by linarith)
      · rw [min_eq_right hc] at hx1
        rw [max_eq_left hc] at hx2
        nlinarith
    have hmul : (b.x - a.x) ^ 2 * (sign p b c * sign p c a)
        = ((p.x - a.x) * (b.x - p.x)) * (sign a b c) ^ 2 := by
      calc (b.x - a.x) ^ 2 * (sign p b c * sign p c a)
          = ((b.x - a.x) * sign p b c) * ((b.x - a.x) * sign p c a) := by ring
        _ = ((b.x - p.x) * sign a b c) * ((p.x - a.x) * sign a b c) := by rw [i2, i3]
        _ = ((p.x - a.x) * (b.x - p.x)) * (sign a b c) ^ 2 := by ring
    have hrhs : 0 ≤ ((p.x - a.x) * (b.x - p.x)) * (sign a b c) ^ 2 :=
      mul_nonneg hbet (sq_nonneg _)
    have hne : b.x - a.x ≠ 0 := sub_ne_zero.mpr (Ne.symm hab)
    have hsq : 0 < (b.x - a.x) ^ 2 :=
      (sq_nonneg _).lt_of_ne fun h => hne ((pow_eq_zero_iff two_ne_zero).mp h.symm)
    have hkey : 0 ≤ sign p b c * sign p c a := by
      by_contra hneg
      push_neg at hneg
      have hlt : (b.x - a.x) ^ 2 * (sign p b c * sign p c a) < 0 :=
        mul_neg_of_pos_of_neg hsq hneg
      rw [hmul] at hlt
      exact absurd hlt (not_lt.mpr hrhs)
    rw [isPointInTriangle_iff]
    rintro ⟨hn | hn | hn, hp | hp | hp⟩
    · omega
    · omega
    · omega
    · omega
    · omega
    · exact absurd hkey (not_le.mpr (mul_neg_of_neg_of_pos hn hp))
    · omega
    · exact absurd hkey (not_le.mpr (mul_neg_of_pos_of_neg hp hn))
    · omega

/-- Boundary inclusivity for all three edges of the triangle. -/
theorem isPointInTriangle_of_boundary (p a b c : Pt)
    (h : onSegB p a b = true ∨ onSegB p b c = true ∨ onSegB p c a = true) :
    isPointInTriangle p a b c = true := by
  rcases h with h | h | h
  · exact isPointInTriangle_of_onSeg_ab p a b c h
  · rw [isPointInTriangle_cyc]
    exact isPointInTriangle_of_onSeg_ab p b c a h
  · rw [isPointInTriangle_cyc, isPointInTriangle_cyc]
    exact isPointInTriangle_of_onSeg_ab p c a b h

/-! ### The ear test -/

theorem isEar_iff (a b c : Pt) (points : List Pt) :
    isEar a b c points = true ↔
      (0 ≤ crossProduct a b c ∧
       ∀ p ∈ points, p ≠ a → p ≠ b → p ≠ c → isPointInTriangle p a b c = false) := by
  unfold isEar
  rw [Bool.and_eq_true, Bool.not_eq_true', List.any_eq_false, decide_eq_true_eq]
  constructor
  · rintro ⟨h1, h2⟩
    refine ⟨h1, fun p hp hpa hpb hpc => ?_⟩
    have hcomb := h2 p hp
    by_cases hq : isPointInTriangle p a b c = true
    · exact absurd (by simp [Bool.and_eq_true, bne_iff_ne, hpa, hpb, hpc, hq]) hcomb
    · exact Bool.eq_false_iff.mpr hq
  · rintro ⟨h1, h2⟩
    refine ⟨h1, fun p hp => ?_⟩
    by_cases hpa : p = a
    · simp [hpa]
    · by_cases hpb : p = b
      · simp [hpb]
      · by_cases hpc : p = c
        · simp [hpc]
        · simp [bne_iff_ne, hpa, hpb, hpc, h2 p hp hpa hpb hpc]

/-! ### Tessellation lemmas -/

theorem generateBezier_length (curve : BezierCurve) (segments : ℕ) :
    (generateBezier curve segments).length = segments + 1 := by
  simp [generateBezier]

theorem generateBezier_get (curve : BezierCurve) (segments i : ℕ) (h : i ≤ segments) :
    (generateBezier curve segments)[i]?
      = some (specBezierPoint curve ((i : ℚ) / (segments : ℚ))) := by
  unfold generateBezier
  rw [List.getElem?_map, List.getElem?_range (by omega)]
  simp only [Option.map_some']
  congr 1
  rw [Prod.ext_iff]
  constructor <;>
    simp only [specBezierPoint, Prod.fst_add, Prod.snd_add, Prod.smul_fst,
      Prod.smul_snd, smul_eq_mul] <;>
    ring

theorem generateBezier_first (curve : BezierCurve) (segments : ℕ) (h : 1 ≤ segments) :
    (generateBezier curve segments)[0]? = some curve.p0 := by
  rw [generateBezier_get curve segments 0 (by omega)]
  simp [specBezierPoint]

theorem generateBezier_last (curve : BezierCurve) (segments : ℕ) (h : 1 ≤ segments) :
    (generateBezier curve segments)[segments]? = some curve.p2 := by
  rw [generateBezier_get curve segments segments (by omega)]
  have hz : ((segments : ℚ)) ≠ 0 := Nat.cast_ne_zero.mpr (by omega)
  rw [div_self hz]
  simp [specBezierPoint]

/-- The Bezier curve `{p0:[0,0], p1:[1,1], p2:[2,0]}` of the spec scenario. -/
def demoCurve : BezierCurve := ⟨(0, 0), (1, 1), (2, 0)⟩

/-! ### Claim theorems -/

/-- Claim C1, counterexample.  The claim says `triangulatePolygon` fails
with a `DegeneratePolygon`/`InvalidArgument` error on fewer than 3 points
and on self-intersecting polygons, and never loops forever.  In fact the
code has no error path at all: a 2-point input returns normally (a
singleton holding the copied input), the self-intersecting bowtie returns
normally with two "triangles", and on the clockwise square a full scan
finds no ear, so the source loop re-scans forever (modelled as `none`). -/
theorem C1_error_claim_cex :
    triangulatePolygon [⟨0, 0, 0⟩, ⟨1, 1, 0⟩] = some [[⟨0, 0, 0⟩, ⟨1, 1, 0⟩]] ∧
    specSimplePolygon bowtie = false ∧
    triangulatePolygon bowtie
      = some [[⟨3, 0, 4⟩, ⟨0, 0, 0⟩, ⟨1, 4, 4⟩], [⟨1, 4, 4⟩, ⟨2, 4, 0⟩, ⟨3, 0, 4⟩]] ∧
    triangulatePolygon cwSquare = none :=
  ⟨by decide, by decide, by decide, by decide⟩

/-- Claim C1, amended.  `triangulatePolygon` declares no errors: with at
most 3 points it returns normally with a single element equal to the
copied input; a self-intersecting polygon (the bowtie, rejected by the
simplicity test) can also return normally; and on input where a full scan
finds no ear (the clockwise square) the source loop never terminates. -/
theorem C1_no_error_paths :
    (∀ points : List Pt, points.length ≤ 3 → triangulatePolygon points = some [points]) ∧
    (specSimplePolygon bowtie = false ∧
      triangulatePolygon bowtie
        = some [[⟨3, 0, 4⟩, ⟨0, 0, 0⟩, ⟨1, 4, 4⟩], [⟨1, 4, 4⟩, ⟨2, 4, 0⟩, ⟨3, 0, 4⟩]]) ∧
    triangulatePolygon cwSquare = none := by
  refine ⟨?_, ⟨by decide, by decide⟩, by decide⟩
  intro ps h
  unfold triangulatePolygon
  rw [triangulateGo_of_le ps.length ps [] (by omega)]
  rfl

/-- Claim C1, witness for the amended theorem at a 1-point input. -/
theorem C1_witness :
    [(⟨0, 0, 0⟩ : Pt)].length ≤ 3 ∧
    triangulatePolygon [⟨0, 0, 0⟩] = some [[⟨0, 0, 0⟩]] :=
  ⟨by decide, C1_no_error_paths.1 [⟨0, 0, 0⟩] (by decide)⟩

/-- Claim C2: whenever `triangulatePolygon` returns on an input with
`n ≥ 3` vertices, it returns exactly `n - 2` triangles, each a list of
exactly 3 points.  (Proved for every input on which the call returns, not
only simple CCW ones, which is stronger than the claim.) -/
theorem C2_count :
    ∀ (points : List Pt) (ts : List (List Pt)),
      3 ≤ points.length → triangulatePolygon points = some ts →
      ts.length = points.length - 2 ∧ ∀ t ∈ ts, t.length = 3 := by
  intro ps ts h3 h
  obtain ⟨tl, htl, hlen, hmem, hdrop, ⟨r, hr, hrlen, hrsm⟩, hsum⟩ :=
    triangulateGo_spec ps.length ps [] ts (by omega) h
  rw [List.nil_append] at htl
  subst htl
  have hne : ts ≠ [] := by intro hh; rw [hh] at hr; simp at hr
  constructor
  · omega
  · intro t ht
    have hdec := List.dropLast_append_getLast hne
    rw [← hdec] at ht
    rcases List.mem_append.mp ht with h1 | h1
    · exact hdrop t h1
    · have ht0 : t = ts.getLast hne := by simpa using h1
      have hg : ts.getLast hne = r := by
        rw [List.getLast?_eq_getLast ts hne] at hr
        exact Option.some.inj hr
      rw [ht0, hg, hrlen]
      exact Nat.min_eq_right (by omega)

/-- Claim C2, witness at the CCW square. -/
theorem C2_witness :
    ([[⟨3, 0, 4⟩, ⟨0, 0, 0⟩, ⟨1, 4, 0⟩],
      [⟨1, 4, 0⟩, ⟨2, 4, 4⟩, ⟨3, 0, 4⟩]] : List (List Pt)).length = ccwSquare.length - 2 ∧
    ∀ t ∈ ([[⟨3, 0, 4⟩, ⟨0, 0, 0⟩, ⟨1, 4, 0⟩],
      [⟨1, 4, 0⟩, ⟨2, 4, 4⟩, ⟨3, 0, 4⟩]] : List (List Pt)), t.length = 3 :=
  C2_count ccwSquare _ (by decide) (by decide)

/-- Claim C3, counterexample.  The dart quadrilateral is simple (it passes
the spec's non-self-intersection test) and clockwise; `triangulatePolygon`
returns on it, but the returned triangles have combined unsigned area 8
while the polygon itself has unsigned area 4 — so unsigned-area
conservation fails for a simple polygon on which the call returns. -/
theorem C3_unsigned_area_cex :
    specSimplePolygon dart = true ∧
    triangulatePolygon dart
      = some [[⟨0, 0, 0⟩, ⟨1, 2, 1⟩, ⟨2, 2, 3⟩], [⟨0, 0, 0⟩, ⟨2, 2, 3⟩, ⟨3, 4, 0⟩]] ∧
    ([[⟨0, 0, 0⟩, ⟨1, 2, 1⟩, ⟨2, 2, 3⟩],
      [⟨0, 0, 0⟩, ⟨2, 2, 3⟩, ⟨3, 4, 0⟩]].map unsignedArea).sum = 8 ∧
    unsignedArea dart = 4 ∧
    ([[⟨0, 0, 0⟩, ⟨1, 2, 1⟩, ⟨2, 2, 3⟩],
      [⟨0, 0, 0⟩, ⟨2, 2, 3⟩, ⟨3, 4, 0⟩]].map unsignedArea).sum ≠ unsignedArea dart := by
  refine ⟨by decide, by decide, ?_, ?_, ?_⟩ <;>
    norm_num [unsignedArea, shoelace, pathSum, wedge, dart]

/-- Claim C3, amended.  Over exact arithmetic the conserved quantity is
the signed (shoelace) area: for every input on which `triangulatePolygon`
returns, the signed areas of the returned triangles sum to the signed area
of the input polygon; on the CCW square of the scenario all triangles are
CCW, so the unsigned areas also sum to the polygon area, 16. -/
theorem C3_area_conservation :
    (∀ (points : List Pt) (ts : List (List Pt)),
      triangulatePolygon points = some ts →
      (ts.map shoelace).sum = shoelace points) ∧
    (triangulatePolygon ccwSquare
        = some [[⟨3, 0, 4⟩, ⟨0, 0, 0⟩, ⟨1, 4, 0⟩], [⟨1, 4, 0⟩, ⟨2, 4, 4⟩, ⟨3, 0, 4⟩]] ∧
      ([[⟨3, 0, 4⟩, ⟨0, 0, 0⟩, ⟨1, 4, 0⟩],
        [⟨1, 4, 0⟩, ⟨2, 4, 4⟩, ⟨3, 0, 4⟩]].map unsignedArea).sum = 16) := by
  refine ⟨?_, by decide, ?_⟩
  · intro ps ts h
    obtain ⟨tl, htl, _, _, _, _, hsum⟩ :=
      triangulateGo_spec ps.length ps [] ts (by omega) h
    rw [htl, List.nil_append]
    exact hsum
  · norm_num [unsignedArea, shoelace, pathSum, wedge]

/-- Claim C3, witness for the amended theorem at the CCW square. -/
theorem C3_witness :
    ([[⟨3, 0, 4⟩, ⟨0, 0, 0⟩, ⟨1, 4, 0⟩],
      [⟨1, 4, 0⟩, ⟨2, 4, 4⟩, ⟨3, 0, 4⟩]].map shoelace).sum = shoelace ccwSquare :=
  C3_area_conservation.1 ccwSquare _ (by decide)

/-- Claim C4: `generateBezier` returns exactly `segments + 1` points, the
`i`-th being the quadratic Bezier formula of the spec evaluated at
`t = i / segments` coordinatewise, and the concrete scenario holds. -/
theorem C4_tessellation :
    (∀ (curve : BezierCurve) (segments : ℕ), 1 ≤ segments →
      (generateBezier curve segments).length = segments + 1 ∧
      ∀ i : ℕ, i ≤ segments →
        (generateBezier curve segments)[i]?
          = some (specBezierPoint curve ((i : ℚ) / (segments : ℚ)))) ∧
    generateBezier demoCurve 2 = [(0, 0), (1, 1/2), (2, 0)] := by
  constructor
  · intro curve segments _
    exact ⟨generateBezier_length curve segments,
      fun i hi => generateBezier_get curve segments i hi⟩
  · norm_num [generateBezier, demoCurve, List.range_succ]

/-- Claim C4, witness at the scenario curve with 2 segments. -/
theorem C4_witness : (generateBezier demoCurve 2).length = 2 + 1 :=
  (C4_tessellation.1 demoCurve 2 (by decide)).1

/-- Claim C5: for `segments ≥ 1` the first output point is exactly `p0`
and the point at index `segments` is exactly `p2`; no input with
`segments ≥ 1` fails (the function is total). -/
theorem C5_endpoints :
    ∀ (curve : BezierCurve) (segments : ℕ), 1 ≤ segments →
      (generateBezier curve segments)[0]? = some curve.p0 ∧
      (generateBezier curve segments)[segments]? = some curve.p2 :=
  fun curve segments h =>
    ⟨generateBezier_first curve segments h, generateBezier_last curve segments h⟩

/-- Claim C5, witness at the scenario curve. -/
theorem C5_witness :
    (generateBezier demoCurve 2)[0]? = some demoCurve.p0 ∧
    (generateBezier demoCurve 2)[2]? = some demoCurve.p2 :=
  C5_endpoints demoCurve 2 (by decide)

/-- Claim C6, counterexample.  The claim says `generateBezier(C, 0)` fails
with `InvalidArgument`; in fact there is no validation and no error path:
the loop body runs exactly once (computing `t = 0/0`, `NaN` in
JavaScript), and a one-point list is returned normally. -/
theorem C6_segments_zero_cex : (generateBezier demoCurve 0).length = 1 := by
  simp [generateBezier]

/-- Claim C6, amended.  `generateBezier` with `segments = 0` does not
fail: for every curve it returns normally, a list of exactly one point
(whose coordinates are `NaN` in JavaScript, outside this exact model). -/
theorem C6_segments_zero_returns :
    ∀ curve : BezierCurve, (generateBezier curve 0).length = 1 :=
  fun curve => generateBezier_length curve 0

/-- Claim C7: `isEar` is the conjunction of the non-negative cross
product test and the emptiness test, where the three ear vertices are
excluded by object identity (modelled by the `ref` tag), not by
coordinates: the second conjunct shows that a list vertex that is a
distinct object (different `ref`) always counts in the emptiness test,
even if its coordinates coincide with an ear vertex. -/
theorem C7_isEar_characterization :
    (∀ (a b c : Pt) (points : List Pt),
      isEar a b c points = true ↔
        (0 ≤ crossProduct a b c ∧
         ∀ p ∈ points, p ≠ a → p ≠ b → p ≠ c → isPointInTriangle p a b c = false)) ∧
    (∀ (a b c p : Pt) (points : List Pt),
      p ∈ points → p.ref ≠ a.ref → p.ref ≠ b.ref → p.ref ≠ c.ref →
      isPointInTriangle p a b c = true → isEar a b c points = false) := by
  refine ⟨isEar_iff, ?_⟩
  intro a b c p points hp hra hrb hrc hin
  by_contra hcon
  rw [Bool.not_eq_false] at hcon
  obtain ⟨_, h2⟩ := (isEar_iff a b c points).mp hcon
  have hfalse := h2 p hp (fun h => hra (congrArg Pt.ref h))
    (fun h => hrb (congrArg Pt.ref h)) (fun h => hrc (congrArg Pt.ref h))
  rw [hin] at hfalse
  exact Bool.noConfusion hfalse

/-- Claim C7, witness: the fourth list vertex shares the coordinates of
ear vertex `a` but is a different object, so it still defeats the ear. -/
theorem C7_witness :
    isEar ⟨0, 0, 0⟩ ⟨1, 4, 0⟩ ⟨2, 0, 4⟩
      [⟨0, 0, 0⟩, ⟨1, 4, 0⟩, ⟨2, 0, 4⟩, ⟨3, 0, 0⟩] = false :=
  C7_isEar_characterization.2 ⟨0, 0, 0⟩ ⟨1, 4, 0⟩ ⟨2, 0, 4⟩ ⟨3, 0, 0⟩
    [⟨0, 0, 0⟩, ⟨1, 4, 0⟩, ⟨2, 0, 4⟩, ⟨3, 0, 0⟩]
    (by decide) (by decide) (by decide) (by decide) (by decide)

/-- Claim C8: `isPointInTriangle` returns true exactly when the three
signed areas are not a mix of strictly-positive and strictly-negative,
and every point on the closed boundary of the triangle (on one of its
three closed edges) passes the test — the test is closed/inclusive. -/
theorem C8_three_sign_test :
    (∀ p a b c : Pt,
      isPointInTriangle p a b c = true ↔
        ¬((sign p a b < 0 ∨ sign p b c < 0 ∨ sign p c a < 0) ∧
          (0 < sign p a b ∨ 0 < sign p b c ∨ 0 < sign p c a))) ∧
    (∀ p a b c : Pt,
      onSegB p a b = true ∨ onSegB p b c = true ∨ onSegB p c a = true →
      isPointInTriangle p a b c = true) :=
  ⟨isPointInTriangle_iff, isPointInTriangle_of_boundary⟩

/-- Claim C8, witness: the midpoint of edge `ab` is on the boundary and
is accepted. -/
theorem C8_witness :
    isPointInTriangle ⟨3, 2, 0⟩ ⟨0, 0, 0⟩ ⟨1, 4, 0⟩ ⟨2, 0, 4⟩ = true :=
  C8_three_sign_test.2 ⟨3, 2, 0⟩ ⟨0, 0, 0⟩ ⟨1, 4, 0⟩ ⟨2, 0, 4⟩ (Or.inl (by decide))

/-- Claim C9: in the state-passing embedding the caller's array contents
pass through `triangulatePolygon` unchanged (all removals happen on the
working copy), the curve argument passes through `generateBezier`
unchanged, and both state-threaded runs compute the plain results. -/
theorem C9_frame :
    (∀ points : List Pt,
      (triangulatePolygonSt points).2 = points ∧
      (triangulatePolygonSt points).1 = triangulatePolygon points) ∧
    (∀ (curve : BezierCurve) (segments : ℕ),
      (generateBezierSt curve segments).2 = curve ∧
      (generateBezierSt curve segments).1 = generateBezier curve segments) := by
  constructor
  · intro ps
    rw [triangulatePolygonSt_eq]
    exact ⟨rfl, rfl⟩
  · intro curve segments
    rw [generateBezierSt_eq]
    exact ⟨rfl, rfl⟩

/-- Claim C10: every point of every returned triangle is an element of
the input list (no coordinates are synthesized); for inputs of at most 3
points the call returns exactly the singleton copy of the input; and the
returned sequence always ends with a residual element drawn from the
input. -/
theorem C10_provenance :
    ∀ (points : List Pt) (ts : List (List Pt)),
      triangulatePolygon points = some ts →
      (∀ t ∈ ts, ∀ p ∈ t, p ∈ points) ∧
      (points.length ≤ 3 → ts = [points]) ∧
      (∃ r, ts.getLast? = some r ∧ ∀ p ∈ r, p ∈ points) := by
  intro ps ts h
  obtain ⟨tl, htl, hlen, hmem, hdrop, ⟨r, hr, hrlen, hrsm⟩, hsum⟩ :=
    triangulateGo_spec ps.length ps [] ts (by omega) h
  rw [List.nil_append] at htl
  subst htl
  have hne : ts ≠ [] := by intro hh; rw [hh] at hr; simp at hr
  refine ⟨hmem, ?_, ?_⟩
  · intro hsmall
    have h1 : ts.length = 1 := by omega
    obtain ⟨t0, ht0⟩ := List.length_eq_one.mp h1
    subst ht0
    have heq : t0 = r := by simpa using hr
    rw [heq, hrsm hsmall]
  · have hrm : r ∈ ts := by
      rw [List.getLast?_eq_getLast ts hne] at hr
      exact (Option.some.inj hr) ▸ List.getLast_mem hne
    exact ⟨r, hr, fun p hp => hmem r hrm p hp⟩

/-- Claim C10, witness at a 2-point input. -/
theorem C10_witness :
    (∀ t ∈ [[(⟨0, 0, 0⟩ : Pt), ⟨1, 1, 0⟩]], ∀ p ∈ t, p ∈ [(⟨0, 0, 0⟩ : Pt), ⟨1, 1, 0⟩]) ∧
    ([(⟨0, 0, 0⟩ : Pt), ⟨1, 1, 0⟩].length ≤ 3 →
      [[(⟨0, 0, 0⟩ : Pt), ⟨1, 1, 0⟩]] = [[(⟨0, 0, 0⟩ : Pt), ⟨1, 1, 0⟩]]) ∧
    (∃ r, ([[(⟨0, 0, 0⟩ : Pt), ⟨1, 1, 0⟩]] : List (List Pt)).getLast? = some r ∧
      ∀ p ∈ r, p ∈ [(⟨0, 0, 0⟩ : Pt), ⟨1, 1, 0⟩]) :=
  C10_provenance [⟨0, 0, 0⟩, ⟨1, 1, 0⟩] [[⟨0, 0, 0⟩, ⟨1, 1, 0⟩]] (by decide)

end Geom
